import Mathlib

/-!
# Verification of the utf8.c byte-oriented UTF-8 engine

Shallow embedding of src/utf8.c (zahash/utf8.c).  Byte buffers are modelled
as `List Nat`: a C string pointer is modelled by the list of the bytes from
the pointed-to position up to (excluding) the underlying NUL terminator, so
reading at an index at or beyond the list length yields the terminator byte 0,
exactly as the C code reads the final NUL.  A possibly-NULL pointer is
modelled as an `Option (List Nat)` with `none` for NULL.  Machine bytes are
naturals below 256; masking with the C bit patterns is `Nat.land`/`&&&`.
-/

/-- One byte of the buffer at index i.  Any index at or past the end of the
modelled content reads the NUL terminator, value 0 (the C code never reads
past the first NUL, so a single default value is faithful). -/
def byteAt (s : List Nat) (i : Nat) : Nat := s.getD i 0

/-- Result of validate_utf8_char (utf8.c lines 6-9). -/
structure utf8_char_validity where
  valid : Bool
  next_offset : Nat
deriving Repr, DecidableEq

/-- Result of validate_utf8 (utf8.h). -/
structure utf8_validity where
  valid : Bool
  valid_upto : Nat
deriving Repr, DecidableEq

/-- A (possibly absent) UTF-8 string view: pointer plus byte length (utf8.h).
The pointer is modelled by the bytes from the pointed position to the
underlying NUL; a NULL pointer is none. -/
structure utf8_string where
  str : Option (List Nat)
  byte_len : Nat
deriving Repr, DecidableEq

/-- An owned heap buffer (utf8.h): pointer plus length, NULL pointer is none. -/
structure owned_utf8_string where
  str : Option (List Nat)
  byte_len : Nat
deriving Repr, DecidableEq

/-- Iterator over UTF-8 characters (utf8.h): just the current pointer,
modelled by the bytes from that pointer to the underlying NUL. -/
structure utf8_char_iter where
  str : List Nat
deriving Repr, DecidableEq

/-- A UTF-8 character (utf8.h): pointer to its first byte plus its length.
The pointer is modelled by the bytes from the character start to the
underlying NUL (so the character occupies the first byte_len entries). -/
structure utf8_char where
  str : List Nat
  byte_len : Nat
deriving Repr, DecidableEq

/-- validate_utf8_char, utf8.c lines 11-78: classifies the byte sequence
starting at offset.  The short-circuit evaluation of the C conditions needs
no special modelling because all byte reads are total here and the C code
never reads past the first NUL (a continuation-byte test fails on the NUL
before any further byte is read). -/
def validate_utf8_char (str : List Nat) (offset : Nat) : utf8_char_validity :=
  -- Single-byte UTF-8 characters have the form 0xxxxxxx
  if byteAt str offset &&& 0b10000000 = 0b00000000 then
    ⟨true, offset + 1⟩
  -- Two-byte UTF-8 characters have the form 110xxxxx 10xxxxxx
  else if byteAt str (offset + 0) &&& 0b11100000 = 0b11000000 ∧
          byteAt str (offset + 1) &&& 0b11000000 = 0b10000000 then
    -- Check for overlong encoding
    if byteAt str offset &&& 0b00011111 < 0b00000010 then ⟨false, offset⟩
    else ⟨true, offset + 2⟩
  -- Three-byte UTF-8 characters have the form 1110xxxx 10xxxxxx 10xxxxxx
  else if byteAt str (offset + 0) &&& 0b11110000 = 0b11100000 ∧
          byteAt str (offset + 1) &&& 0b11000000 = 0b10000000 ∧
          byteAt str (offset + 2) &&& 0b11000000 = 0b10000000 then
    -- Check for overlong encoding
    if byteAt str (offset + 0) &&& 0b00001111 = 0b00000000 ∧
       byteAt str (offset + 1) &&& 0b00111111 < 0b00100000 then ⟨false, offset⟩
    -- Reject UTF-16 surrogates U+D800 to U+DFFF
    else if byteAt str (offset + 0) = 0b11101101 ∧
            0b10100000 ≤ byteAt str (offset + 1) ∧
            byteAt str (offset + 1) ≤ 0b10111111 then ⟨false, offset⟩
    else ⟨true, offset + 3⟩
  -- Four-byte UTF-8 characters have the form 11110xxx 10xxxxxx 10xxxxxx 10xxxxxx
  else if byteAt str (offset + 0) &&& 0b11111000 = 0b11110000 ∧
          byteAt str (offset + 1) &&& 0b11000000 = 0b10000000 ∧
          byteAt str (offset + 2) &&& 0b11000000 = 0b10000000 ∧
          byteAt str (offset + 3) &&& 0b11000000 = 0b10000000 then
    -- Check for overlong encoding
    if byteAt str (offset + 0) &&& 0b00000111 = 0b00000000 ∧
       byteAt str (offset + 1) &&& 0b00111111 < 0b00010000 then ⟨false, offset⟩
    else ⟨true, offset + 4⟩
  else ⟨false, offset⟩

theorem byteAt_eq_zero_of_le {s : List Nat} {i : Nat} (h : s.length ≤ i) :
    byteAt s i = 0 := by
  simp [byteAt, List.getD, List.getElem?_eq_none h]

theorem lt_length_of_byteAt_ne_zero {s : List Nat} {i : Nat}
    (h : byteAt s i ≠ 0) : i < s.length := by
  by_contra hc
  exact h (byteAt_eq_zero_of_le (Nat.le_of_not_lt hc))

theorem byteAt_eq_getElem {s : List Nat} {i : Nat} (h : i < s.length) :
    byteAt s i = s[i] := by
  simp [byteAt, List.getD_eq_getElem?_getD, List.getElem?_eq_getElem h]

theorem byteAt_mem {s : List Nat} {i : Nat} (h : i < s.length) :
    byteAt s i ∈ s := by
  rw [byteAt_eq_getElem h]
  exact List.getElem_mem h

/-- A classifier success always advances the offset. -/
theorem validate_utf8_char_progress (s : List Nat) (o : Nat)
    (h : (validate_utf8_char s o).valid = true) :
    o < (validate_utf8_char s o).next_offset := by
  unfold validate_utf8_char at *
  split_ifs at * <;> simp_all <;> omega

/-- The scan loop of validate_utf8, utf8.c lines 83-92. -/
def validate_utf8_loop (str : List Nat) (offset : Nat) : utf8_validity :=
  if h0 : byteAt str offset = 0 then ⟨true, offset⟩
  else
    if hv : (validate_utf8_char str offset).valid then
      validate_utf8_loop str (validate_utf8_char str offset).next_offset
    else ⟨false, offset⟩
termination_by str.length - offset
decreasing_by
  have h1 := lt_length_of_byteAt_ne_zero h0
  have h2 := validate_utf8_char_progress str offset hv
  omega

/-- validate_utf8, utf8.c lines 80-93. -/
def validate_utf8 (str : Option (List Nat)) : utf8_validity :=
  match str with
  | none => ⟨false, 0⟩
  | some s => validate_utf8_loop s 0

/-- make_utf8_string, utf8.c lines 95-99. -/
def make_utf8_string (str : Option (List Nat)) : utf8_string :=
  let validity := validate_utf8 str
  if validity.valid then ⟨str, validity.valid_upto⟩
  else ⟨none, 0⟩

/-- C strlen: number of bytes before the first NUL.  On the modelled content
(which normally contains no 0) this is the list length, but the definition
follows the C semantics of scanning for the first 0 byte. -/
def strlen : List Nat → Nat
  | [] => 0
  | b :: t => if b = 0 then 0 else strlen t + 1

theorem strlen_le_length (s : List Nat) : strlen s ≤ s.length := by
  induction s with
  | nil => simp [strlen]
  | cons b t ih => simp only [strlen, List.length_cons]; split <;> omega

theorem strlen_eq_length {s : List Nat} (h : ∀ b ∈ s, b ≠ 0) :
    strlen s = s.length := by
  induction s with
  | nil => simp [strlen]
  | cons b t ih =>
    simp only [strlen, List.length_cons]
    rw [if_neg (h b (by simp))]
    rw [ih (fun x hx => h x (by simp [hx]))]

/-- The copy/replace loop of make_utf8_string_lossy, utf8.c lines 117-137.
Returns the bytes written to the output buffer (the final NUL written at
line 139 is the terminator of the output, not part of byte_len). -/
def lossy_loop (str : List Nat) (offset : Nat) : List Nat :=
  if h : offset < strlen str then
    if hv : (validate_utf8_char str offset).valid then
      -- Copy valid UTF-8 character sequence to the buffer
      (str.drop offset).take ((validate_utf8_char str offset).next_offset - offset) ++
        lossy_loop str (validate_utf8_char str offset).next_offset
    else
      -- Insert the UTF-8 bytes for U+FFFD: EF BF BD
      0xEF :: 0xBF :: 0xBD :: lossy_loop str (offset + 1)
  else []
termination_by str.length - offset
decreasing_by
  · have h1 := strlen_le_length str
    have h2 := validate_utf8_char_progress str offset hv
    omega
  · have h1 := strlen_le_length str
    omega

/-- make_utf8_string_lossy, utf8.c lines 101-142.  Allocation failure
(line 111) is not modelled: the model represents the executions in which
malloc succeeds. -/
def make_utf8_string_lossy (str : Option (List Nat)) : owned_utf8_string :=
  match str with
  | none => ⟨none, 0⟩
  | some s => ⟨some (lossy_loop s 0), (lossy_loop s 0).length⟩

/-- as_utf8_string, utf8.c lines 144-146. -/
def as_utf8_string (owned_str : owned_utf8_string) : utf8_string :=
  ⟨owned_str.str, owned_str.byte_len⟩

/-- free_owned_utf8_string, utf8.c lines 148-154, as a function on the struct
state: a non-NULL pointer is freed and the struct zeroed, a NULL pointer
leaves the struct untouched. -/
def free_owned_utf8_string (owned_str : owned_utf8_string) : owned_utf8_string :=
  match owned_str.str with
  | some _ => ⟨none, 0⟩
  | none => owned_str

/-- is_utf8_char_boundary, utf8.c lines 160-162, on the byte value read. -/
def is_utf8_char_boundary (b : Nat) : Bool :=
  b ≤ 0b01111111 || 0b11000000 ≤ b

/-- The modulus of the 64-bit size_t arithmetic in slice_utf8_string. -/
def size_t_mod : Nat := 2 ^ 64

/-- slice_utf8_string, utf8.c lines 164-174.  The size_t addition
excl_end_byte_index = start_byte_index + byte_len wraps modulo 2^64, and the
size_t subtraction excl_end_byte_index - start_byte_index wraps as well
(unsigned arithmetic, no undefined behaviour), so both are modelled modulo
size_t_mod.  The C code dereferences the pointer of the view, so the none
branch (NULL view, undefined behaviour in C) is a modelling artefact never
used by the claims. -/
def slice_utf8_string (ustr : utf8_string) (start_byte_index byte_len : Nat) :
    utf8_string :=
  match ustr.str with
  | none => ⟨none, 0⟩
  | some l =>
    let s := if start_byte_index > ustr.byte_len then ustr.byte_len else start_byte_index
    let e0 := (s + byte_len) % size_t_mod
    let e := if e0 > ustr.byte_len then ustr.byte_len else e0
    if is_utf8_char_boundary (byteAt l s) && is_utf8_char_boundary (byteAt l e) then
      ⟨some (l.drop s), (e + size_t_mod - s) % size_t_mod⟩
    else ⟨none, 0⟩

/-- make_utf8_char_iter, utf8.c lines 156-158.  A NULL view (never produced
for iteration by the claims) is mapped to the empty remainder. -/
def make_utf8_char_iter (ustr : utf8_string) : utf8_char_iter :=
  ⟨ustr.str.getD []⟩

/-- The advance loop of next_utf8_char (utf8.c lines 186-189): step the
pointer while the current byte is not a character boundary, counting the
steps.  The NUL terminator (the end of the modelled list, or a 0 byte) is a
boundary, so the loop stops there exactly as in C. -/
def skip_to_boundary : List Nat → List Nat × Nat
  | [] => ([], 0)
  | b :: t =>
    if is_utf8_char_boundary b then (b :: t, 0)
    else
      let r := skip_to_boundary t
      (r.1, r.2 + 1)

theorem skip_to_boundary_length (s : List Nat) :
    (skip_to_boundary s).1.length ≤ s.length := by
  induction s with
  | nil => simp [skip_to_boundary]
  | cons b t ih =>
    simp only [skip_to_boundary]
    split
    · simp
    · simpa using Nat.le_trans ih (by simp)

/-- next_utf8_char, utf8.c lines 176-192, as a function from the iterator
state to the returned character and the new iterator state. -/
def next_utf8_char (iter : utf8_char_iter) : utf8_char × utf8_char_iter :=
  if byteAt iter.str 0 = 0 then (⟨iter.str, 0⟩, iter)
  else
    let r := skip_to_boundary (iter.str.drop 1)
    (⟨iter.str, 1 + r.2⟩, ⟨r.1⟩)

/-- The counting loop of utf8_char_count, utf8.c lines 207-208. -/
def utf8_char_count_loop (s : List Nat) : Nat :=
  if h : (next_utf8_char ⟨s⟩).1.byte_len > 0 then
    utf8_char_count_loop (next_utf8_char ⟨s⟩).2.str + 1
  else 0
termination_by s.length
decreasing_by
  simp only [next_utf8_char] at *
  split at h
  · simp at h
  · rename_i h0
    have h1 := lt_length_of_byteAt_ne_zero h0
    have h2 := skip_to_boundary_length (s.drop 1)
    simp_all
    omega

/-- utf8_char_count, utf8.c lines 204-210. -/
def utf8_char_count (ustr : utf8_string) : Nat :=
  utf8_char_count_loop (make_utf8_char_iter ustr).str

/-- unicode_code_point, utf8.c lines 212-230.  The C `char` accesses are
sign-extended before masking, but every mask keeps only low bits, so masking
the byte value is identical. -/
def unicode_code_point (uchar : utf8_char) : Nat :=
  match uchar.byte_len with
  | 1 => byteAt uchar.str 0 &&& 0b01111111
  | 2 =>
    (byteAt uchar.str 0 &&& 0b00011111) <<< 6 |||
    (byteAt uchar.str 1 &&& 0b00111111)
  | 3 =>
    (byteAt uchar.str 0 &&& 0b00001111) <<< 12 |||
    (byteAt uchar.str 1 &&& 0b00111111) <<< 6 |||
    (byteAt uchar.str 2 &&& 0b00111111)
  | 4 =>
    (byteAt uchar.str 0 &&& 0b00000111) <<< 18 |||
    (byteAt uchar.str 1 &&& 0b00111111) <<< 12 |||
    (byteAt uchar.str 2 &&& 0b00111111) <<< 6 |||
    (byteAt uchar.str 3 &&& 0b00111111)
  | _ => 0 -- unreachable

/-! ## Spec-side notions

The spec describes buffers as sequences of well-formed scalar-value
encodings.  The repository defines well-formedness of a single character by
its classifier validate_utf8_char, so the spec-level notion of a byte range
that is a sequence of scalar values is the reflexive-transitive chain of
classifier steps. -/

/-- Bytes of a buffer all lie below 256 (they model machine bytes). -/
def AllBytes (s : List Nat) : Prop := ∀ b ∈ s, b < 256

/-- Content of a NUL-terminated buffer: no byte is the terminator 0. -/
def NoNul (s : List Nat) : Prop := ∀ b ∈ s, b ≠ 0

instance (s : List Nat) : Decidable (AllBytes s) := List.decidableBAll _ s

instance (s : List Nat) : Decidable (NoNul s) := List.decidableBAll _ s

theorem byteAt_lt_256 {s : List Nat} (hB : AllBytes s) (i : Nat) :
    byteAt s i < 256 := by
  by_cases h : i < s.length
  · exact hB _ (byteAt_mem h)
  · rw [byteAt_eq_zero_of_le (Nat.le_of_not_lt h)]; omega

/-- A continuation byte 10xxxxxx. -/
def IsCont (b : Nat) : Prop := 0b10000000 ≤ b ∧ b ≤ 0b10111111

/-- The byte range [a, b) of the buffer is a concatenation of exactly n
classifier-valid character encodings. -/
inductive EncodesChars (s : List Nat) : Nat → Nat → Nat → Prop
  | nil (a : Nat) : EncodesChars s a a 0
  | cons {a b n : Nat} (hv : (validate_utf8_char s a).valid = true)
      (ht : EncodesChars s (validate_utf8_char s a).next_offset b n) :
      EncodesChars s a b (n + 1)

/-- Computable companion of EncodesChars: follows the (deterministic)
classifier chain from a and reports the number of characters if the chain
hits b exactly. -/
def encodesCount (s : List Nat) (a b : Nat) : Option Nat :=
  if a = b then some 0
  else if h : a < b ∧ (validate_utf8_char s a).valid = true then
    match encodesCount s (validate_utf8_char s a).next_offset b with
    | some n => some (n + 1)
    | none => none
  else none
termination_by b - a
decreasing_by
  have := validate_utf8_char_progress s a h.2
  omega

theorem EncodesChars.le {s : List Nat} {a b n : Nat}
    (h : EncodesChars s a b n) : a ≤ b := by
  induction h with
  | nil => omega
  | cons hv ht ih =>
    have := validate_utf8_char_progress _ _ hv
    omega

theorem EncodesChars.pos_inv {s : List Nat} {a b n : Nat}
    (h : EncodesChars s a b (n + 1)) :
    (validate_utf8_char s a).valid = true ∧
      EncodesChars s (validate_utf8_char s a).next_offset b n := by
  cases h with
  | cons hv ht => exact ⟨hv, ht⟩

theorem EncodesChars.zero_inv {s : List Nat} {a b : Nat}
    (h : EncodesChars s a b 0) : a = b := by
  cases h; rfl

theorem encodesCount_sound {s : List Nat} {b : Nat} :
    ∀ m a n, b - a ≤ m → encodesCount s a b = some n → EncodesChars s a b n := by
  intro m
  induction m with
  | zero =>
    intro a n hle h
    rw [encodesCount] at h
    split_ifs at h with h1 h2
    · cases h; subst h1; exact EncodesChars.nil a
    · exact absurd h2.1 (by omega)
  | succ m ih =>
    intro a n hle h
    rw [encodesCount] at h
    split_ifs at h with h1 h2
    · cases h; subst h1; exact EncodesChars.nil a
    · rcases h3 : encodesCount s (validate_utf8_char s a).next_offset b with _ | k
      · rw [h3] at h; cases h
      · rw [h3] at h
        cases h
        have hp := validate_utf8_char_progress s a h2.2
        exact EncodesChars.cons h2.2 (ih _ _ (by omega) h3)

theorem encodesCount_iff {s : List Nat} {a b n : Nat} :
    encodesCount s a b = some n ↔ EncodesChars s a b n := by
  constructor
  · exact fun h => encodesCount_sound (b - a) a n Nat.le.refl h
  · intro h
    induction h with
    | nil a => rw [encodesCount]; simp
    | cons hv ht ih =>
      rename_i a b n
      have hp := validate_utf8_char_progress _ _ hv
      have hle := ht.le
      rw [encodesCount]
      rw [if_neg (by omega), dif_pos ⟨by omega, hv⟩, ih]

/-- The classifier chain is deterministic: a range encodes a unique number
of characters. -/
theorem EncodesChars.unique {s : List Nat} {a b n m : Nat}
    (h1 : EncodesChars s a b n) (h2 : EncodesChars s a b m) : n = m := by
  rw [← encodesCount_iff] at h1 h2
  rw [h1] at h2
  cases h2
  rfl

/-- Splitting off the chain from a common start: a longer chain from the same
start passes through the end of the shorter one. -/
theorem EncodesChars.split {s : List Nat} {a b b' n m : Nat}
    (h1 : EncodesChars s a b n) (h2 : EncodesChars s a b' m) (hnm : n ≤ m) :
    EncodesChars s b b' (m - n) := by
  induction h1 generalizing m with
  | nil => simpa using h2
  | cons hv ht ih =>
    rename_i a1 b1 n1
    match m, hnm with
    | m + 1, _ =>
      have := h2.pos_inv
      have h3 := ih this.2 (by omega)
      simpa using h3

/-! ## Bit-mask arithmetic on bytes

The classifier works with C bit masks; on byte values (< 256) each mask
test is an interval or residue condition.  Each fact is checked on all 256
byte values. -/

set_option maxRecDepth 4000

theorem mask_128 : ∀ b < 256, (b &&& 0b10000000 = 0b00000000 ↔ b < 128) := by decide

theorem mask_2lead : ∀ b < 256, (b &&& 0b11100000 = 0b11000000 ↔ 192 ≤ b ∧ b ≤ 223) := by decide

theorem mask_cont : ∀ b < 256, (b &&& 0b11000000 = 0b10000000 ↔ 128 ≤ b ∧ b ≤ 191) := by decide

theorem mask_3lead : ∀ b < 256, (b &&& 0b11110000 = 0b11100000 ↔ 224 ≤ b ∧ b ≤ 239) := by decide

theorem mask_4lead : ∀ b < 256, (b &&& 0b11111000 = 0b11110000 ↔ 240 ≤ b ∧ b ≤ 247) := by decide

theorem mask_low3 : ∀ b < 256, b &&& 0b00000111 = b % 8 := by decide

theorem mask_low4 : ∀ b < 256, b &&& 0b00001111 = b % 16 := by decide

theorem mask_low5 : ∀ b < 256, b &&& 0b00011111 = b % 32 := by decide

theorem mask_low6 : ∀ b < 256, b &&& 0b00111111 = b % 64 := by decide

theorem mask_low7 : ∀ b < 256, b &&& 0b01111111 = b % 128 := by decide

/-- Interval characterization of the classifier on byte values. -/
theorem validate_utf8_char_eq (s : List Nat) (o : Nat)
    (h0 : byteAt s o < 256) (h1 : byteAt s (o + 1) < 256)
    (h2 : byteAt s (o + 2) < 256) (h3 : byteAt s (o + 3) < 256) :
    validate_utf8_char s o =
      if byteAt s o < 128 then ⟨true, o + 1⟩
      else if (192 ≤ byteAt s o ∧ byteAt s o ≤ 223) ∧
              (128 ≤ byteAt s (o + 1) ∧ byteAt s (o + 1) ≤ 191) then
        if byteAt s o < 194 then ⟨false, o⟩ else ⟨true, o + 2⟩
      else if (224 ≤ byteAt s o ∧ byteAt s o ≤ 239) ∧
              (128 ≤ byteAt s (o + 1) ∧ byteAt s (o + 1) ≤ 191) ∧
              (128 ≤ byteAt s (o + 2) ∧ byteAt s (o + 2) ≤ 191) then
        if byteAt s o = 224 ∧ byteAt s (o + 1) < 160 then ⟨false, o⟩
        else if byteAt s o = 237 ∧ 160 ≤ byteAt s (o + 1) then ⟨false, o⟩
        else ⟨true, o + 3⟩
      else if (240 ≤ byteAt s o ∧ byteAt s o ≤ 247) ∧
              (128 ≤ byteAt s (o + 1) ∧ byteAt s (o + 1) ≤ 191) ∧
              (128 ≤ byteAt s (o + 2) ∧ byteAt s (o + 2) ≤ 191) ∧
              (128 ≤ byteAt s (o + 3) ∧ byteAt s (o + 3) ≤ 191) then
        if byteAt s o = 240 ∧ byteAt s (o + 1) < 144 then ⟨false, o⟩
        else ⟨true, o + 4⟩
      else ⟨false, o⟩ := by
  unfold validate_utf8_char
  simp only [Nat.add_zero, mask_128 _ h0, mask_2lead _ h0, mask_cont _ h1,
    mask_3lead _ h0, mask_cont _ h2, mask_4lead _ h0, mask_cont _ h3,
    mask_low5 _ h0, mask_low4 _ h0, mask_low6 _ h1, mask_low3 _ h0]
  split_ifs <;> first | rfl | omega

/-- Dissection of a classifier success into the interval facts about the
bytes of the accepted character. -/
theorem validate_utf8_char_dissect {s : List Nat} (hB : AllBytes s) {o : Nat}
    (hv : (validate_utf8_char s o).valid = true) :
    ((validate_utf8_char s o).next_offset = o + 1 ∧ byteAt s o < 128) ∨
    ((validate_utf8_char s o).next_offset = o + 2 ∧
      194 ≤ byteAt s o ∧ byteAt s o ≤ 223 ∧
      128 ≤ byteAt s (o + 1) ∧ byteAt s (o + 1) ≤ 191) ∨
    ((validate_utf8_char s o).next_offset = o + 3 ∧
      224 ≤ byteAt s o ∧ byteAt s o ≤ 239 ∧
      128 ≤ byteAt s (o + 1) ∧ byteAt s (o + 1) ≤ 191 ∧
      128 ≤ byteAt s (o + 2) ∧ byteAt s (o + 2) ≤ 191 ∧
      ¬(byteAt s o = 224 ∧ byteAt s (o + 1) < 160) ∧
      ¬(byteAt s o = 237 ∧ 160 ≤ byteAt s (o + 1))) ∨
    ((validate_utf8_char s o).next_offset = o + 4 ∧
      240 ≤ byteAt s o ∧ byteAt s o ≤ 247 ∧
      128 ≤ byteAt s (o + 1) ∧ byteAt s (o + 1) ≤ 191 ∧
      128 ≤ byteAt s (o + 2) ∧ byteAt s (o + 2) ≤ 191 ∧
      128 ≤ byteAt s (o + 3) ∧ byteAt s (o + 3) ≤ 191 ∧
      ¬(byteAt s o = 240 ∧ byteAt s (o + 1) < 144)) := by
  rw [validate_utf8_char_eq s o (byteAt_lt_256 hB o) (byteAt_lt_256 hB _)
    (byteAt_lt_256 hB _) (byteAt_lt_256 hB _)] at hv ⊢
  split_ifs at hv ⊢ <;> simp_all <;> omega


/-- Possible shapes of a classifier success: the advance is 1-4 bytes and
all trailing bytes of the accepted character are continuation bytes. -/
theorem validate_utf8_char_next_shape {s : List Nat} {o : Nat}
    (hv : (validate_utf8_char s o).valid = true) :
    (validate_utf8_char s o).next_offset = o + 1 ∨
    ((validate_utf8_char s o).next_offset = o + 2 ∧ byteAt s (o + 1) &&& 192 = 128) ∨
    ((validate_utf8_char s o).next_offset = o + 3 ∧ byteAt s (o + 2) &&& 192 = 128) ∨
    ((validate_utf8_char s o).next_offset = o + 4 ∧ byteAt s (o + 3) &&& 192 = 128) := by
  unfold validate_utf8_char at hv ⊢
  split_ifs at hv ⊢ <;> simp_all

/-- On a NUL-terminated buffer a classifier success never runs past the
terminator: the accepted character ends within the content. -/
theorem validate_utf8_char_next_le {s : List Nat} {o : Nat}
    (h0 : byteAt s o ≠ 0) (hv : (validate_utf8_char s o).valid = true) :
    (validate_utf8_char s o).next_offset ≤ s.length := by
  have hlen := lt_length_of_byteAt_ne_zero h0
  rcases validate_utf8_char_next_shape hv with h | ⟨h, hc⟩ | ⟨h, hc⟩ | ⟨h, hc⟩
  · omega
  · have hne : byteAt s (o + 1) ≠ 0 := by
      intro he; rw [he] at hc; exact absurd hc (by decide)
    have := lt_length_of_byteAt_ne_zero hne
    omega
  · have hne : byteAt s (o + 2) ≠ 0 := by
      intro he; rw [he] at hc; exact absurd hc (by decide)
    have := lt_length_of_byteAt_ne_zero hne
    omega
  · have hne : byteAt s (o + 3) ≠ 0 := by
      intro he; rw [he] at hc; exact absurd hc (by decide)
    have := lt_length_of_byteAt_ne_zero hne
    omega

/-- Full characterization of the validate_utf8 scan loop, by induction on the
remaining length.  On success the loop has consumed the whole content as a
chain of valid characters; on failure the prefix up to valid_upto is such a
chain and the classifier rejects at valid_upto. -/
theorem validate_utf8_loop_spec_aux {s : List Nat} (hnz : NoNul s) :
    ∀ m o, s.length - o ≤ m → o ≤ s.length →
    ((validate_utf8_loop s o).valid = true →
        (validate_utf8_loop s o).valid_upto = s.length ∧
        ∃ n, EncodesChars s o s.length n) ∧
    ((validate_utf8_loop s o).valid = false →
        (∃ n, EncodesChars s o (validate_utf8_loop s o).valid_upto n) ∧
        (validate_utf8_char s (validate_utf8_loop s o).valid_upto).valid = false ∧
        (validate_utf8_loop s o).valid_upto < s.length) := by
  intro m
  induction m with
  | zero =>
    intro o hm ho
    have ho' : o = s.length := by omega
    rw [validate_utf8_loop, dif_pos (byteAt_eq_zero_of_le (by omega))]
    constructor
    · intro _
      exact ⟨ho', 0, ho' ▸ EncodesChars.nil o⟩
    · intro h; cases h
  | succ m ih =>
    intro o hm ho
    by_cases h0 : byteAt s o = 0
    · have hge : s.length ≤ o := by
        by_contra hc
        exact hnz _ (byteAt_mem (Nat.lt_of_not_le hc)) h0
      have ho' : o = s.length := by omega
      rw [validate_utf8_loop, dif_pos h0]
      constructor
      · intro _
        exact ⟨ho', 0, ho' ▸ EncodesChars.nil o⟩
      · intro h; cases h
    · rw [validate_utf8_loop, dif_neg h0]
      by_cases hv : (validate_utf8_char s o).valid = true
      · rw [dif_pos hv]
        have hprog := validate_utf8_char_progress s o hv
        have hle := validate_utf8_char_next_le h0 hv
        have IH := ih (validate_utf8_char s o).next_offset (by omega) hle
        constructor
        · intro hval
          obtain ⟨h1, n, h2⟩ := IH.1 hval
          exact ⟨h1, n + 1, EncodesChars.cons hv h2⟩
        · intro hval
          obtain ⟨⟨n, h1⟩, h2, h3⟩ := IH.2 hval
          exact ⟨⟨n + 1, EncodesChars.cons hv h1⟩, h2, h3⟩
      · rw [dif_neg hv]
        constructor
        · intro h; cases h
        · intro _
          refine ⟨⟨0, EncodesChars.nil o⟩, ?_, lt_length_of_byteAt_ne_zero h0⟩
          simpa using hv
  
theorem validate_utf8_loop_spec {s : List Nat} (hnz : NoNul s) {o : Nat}
    (ho : o ≤ s.length) :
    ((validate_utf8_loop s o).valid = true →
        (validate_utf8_loop s o).valid_upto = s.length ∧
        ∃ n, EncodesChars s o s.length n) ∧
    ((validate_utf8_loop s o).valid = false →
        (∃ n, EncodesChars s o (validate_utf8_loop s o).valid_upto n) ∧
        (validate_utf8_char s (validate_utf8_loop s o).valid_upto).valid = false ∧
        (validate_utf8_loop s o).valid_upto < s.length) :=
  validate_utf8_loop_spec_aux hnz (s.length - o) o Nat.le.refl ho

/-- Every chain from the start of the buffer stops at or before an offset at
which the classifier reports failure. -/
theorem chain_stops {s : List Nat} {u k : Nat} (hu : EncodesChars s 0 u k)
    (hstop : (validate_utf8_char s u).valid = false) {b m : Nat}
    (h : EncodesChars s 0 b m) : b ≤ u := by
  rcases Nat.le_total m k with hmk | hkm
  · exact (EncodesChars.split h hu hmk).le
  · have hsplit := EncodesChars.split hu h hkm
    rcases hd : m - k with _ | p
    · rw [hd] at hsplit
      rw [hsplit.zero_inv]
    · rw [hd] at hsplit
      have := hsplit.pos_inv.1
      rw [hstop] at this
      cases this

/-- C1: for every NUL-terminated byte string s, validate(s) returns
valid=true iff every byte of the content belongs to a well-formed
scalar-value encoding (the content is a chain of classifier-valid
characters), and then valid_upto is the scanned length; on failure
valid_upto is the length of the longest valid prefix — it is the end of a
whole chain of characters (hence a character boundary, 0 if the very first
character is malformed) and no chain reaches further; validate(NULL) is
{valid=false, valid_upto=0}. -/
theorem C1_validate_characterization (s : List Nat) (hnz : NoNul s) :
    validate_utf8 none = ⟨false, 0⟩ ∧
    ((validate_utf8 (some s)).valid = true ↔ ∃ n, EncodesChars s 0 s.length n) ∧
    ((validate_utf8 (some s)).valid = true →
      (validate_utf8 (some s)).valid_upto = s.length) ∧
    ((validate_utf8 (some s)).valid = false →
      (∃ n, EncodesChars s 0 (validate_utf8 (some s)).valid_upto n) ∧
      ∀ b m, EncodesChars s 0 b m → b ≤ (validate_utf8 (some s)).valid_upto) := by
  have hspec := validate_utf8_loop_spec hnz (Nat.zero_le s.length)
  simp only [validate_utf8]
  refine ⟨trivial, ⟨?_, ?_⟩, ?_, ?_⟩
  · intro h
    exact (hspec.1 h).2
  · rintro ⟨n, hch⟩
    by_contra hc
    have hf : (validate_utf8_loop s 0).valid = false := by
      cases hval : (validate_utf8_loop s 0).valid
      · rfl
      · exact absurd hval hc
    obtain ⟨⟨k, hk⟩, hstop, hlt⟩ := hspec.2 hf
    have := chain_stops hk hstop hch
    omega
  · intro h
    exact (hspec.1 h).1
  · intro hf
    obtain ⟨⟨k, hk⟩, hstop, hlt⟩ := hspec.2 hf
    exact ⟨⟨k, hk⟩, fun b m hm => chain_stops hk hstop hm⟩

theorem C1_witness :
    NoNul [104] ∧
    (validate_utf8 none = ⟨false, 0⟩ ∧
     ((validate_utf8 (some [104])).valid = true ↔
        ∃ n, EncodesChars [104] 0 (List.length [104]) n) ∧
     ((validate_utf8 (some [104])).valid = true →
        (validate_utf8 (some [104])).valid_upto = List.length [104]) ∧
     ((validate_utf8 (some [104])).valid = false →
        (∃ n, EncodesChars [104] 0 (validate_utf8 (some [104])).valid_upto n) ∧
        ∀ b m, EncodesChars [104] 0 b m →
          b ≤ (validate_utf8 (some [104])).valid_upto)) :=
  ⟨by decide, C1_validate_characterization [104] (by decide)⟩

/-- C6: the classifier rejects overlong and surrogate encodings with zero
progress: a leading byte 0xC0 or 0xC1 is always invalid; a three-byte
sequence with leading byte 0xE0 and second byte below 0xA0 is invalid; a
four-byte sequence with leading byte 0xF0 and second byte below 0x90 is
invalid; and a three-byte sequence 0xED followed by a second byte in
[0xA0, 0xBF] and any continuation byte is invalid.  In each case the
result is {valid=false, next_offset=offset}. -/
theorem C6_overlong_surrogate_rejection :
    (∀ (s : List Nat) (o : Nat), byteAt s o = 0xC0 ∨ byteAt s o = 0xC1 →
      validate_utf8_char s o = ⟨false, o⟩) ∧
    (∀ (s : List Nat) (o : Nat), byteAt s o = 0xE0 →
      byteAt s (o + 1) < 0xA0 →
      0x80 ≤ byteAt s (o + 2) → byteAt s (o + 2) ≤ 0xBF →
      validate_utf8_char s o = ⟨false, o⟩) ∧
    (∀ (s : List Nat) (o : Nat), byteAt s o = 0xF0 →
      byteAt s (o + 1) < 0x90 →
      0x80 ≤ byteAt s (o + 2) → byteAt s (o + 2) ≤ 0xBF →
      0x80 ≤ byteAt s (o + 3) → byteAt s (o + 3) ≤ 0xBF →
      validate_utf8_char s o = ⟨false, o⟩) ∧
    (∀ (s : List Nat) (o : Nat), byteAt s o = 0xED →
      0xA0 ≤ byteAt s (o + 1) → byteAt s (o + 1) ≤ 0xBF →
      0x80 ≤ byteAt s (o + 2) → byteAt s (o + 2) ≤ 0xBF →
      validate_utf8_char s o = ⟨false, o⟩) := by
  refine ⟨?_, ?_, ?_, ?_⟩
  · intro s o h
    unfold validate_utf8_char
    rcases h with h | h
    · simp only [Nat.add_zero, h]
      simp only [mask_128 192 (by omega), mask_2lead 192 (by omega),
        mask_3lead 192 (by omega), mask_4lead 192 (by omega),
        mask_low5 192 (by omega), mask_low4 192 (by omega), mask_low3 192 (by omega)]
      split_ifs <;> first | rfl | (exfalso; simp only [true_and] at *; omega)
    · simp only [Nat.add_zero, h]
      simp only [mask_128 193 (by omega), mask_2lead 193 (by omega),
        mask_3lead 193 (by omega), mask_4lead 193 (by omega),
        mask_low5 193 (by omega), mask_low4 193 (by omega), mask_low3 193 (by omega)]
      split_ifs <;> first | rfl | (exfalso; simp only [true_and] at *; omega)
  · intro s o h h1 h2a h2b
    unfold validate_utf8_char
    simp only [Nat.add_zero, h]
    simp only [mask_128 224 (by omega), mask_2lead 224 (by omega),
      mask_3lead 224 (by omega), mask_4lead 224 (by omega),
      mask_low5 224 (by omega), mask_low4 224 (by omega), mask_low3 224 (by omega),
      mask_cont _ (show byteAt s (o + 1) < 256 by omega),
      mask_cont _ (show byteAt s (o + 2) < 256 by omega),
      mask_low6 _ (show byteAt s (o + 1) < 256 by omega)]
    split_ifs <;> first | rfl | (exfalso; simp only [true_and] at *; omega)
  · intro s o h h1 h2a h2b h3a h3b
    unfold validate_utf8_char
    simp only [Nat.add_zero, h]
    simp only [mask_128 240 (by omega), mask_2lead 240 (by omega),
      mask_3lead 240 (by omega), mask_4lead 240 (by omega),
      mask_low5 240 (by omega), mask_low4 240 (by omega), mask_low3 240 (by omega),
      mask_cont _ (show byteAt s (o + 1) < 256 by omega),
      mask_cont _ (show byteAt s (o + 2) < 256 by omega),
      mask_cont _ (show byteAt s (o + 3) < 256 by omega),
      mask_low6 _ (show byteAt s (o + 1) < 256 by omega)]
    split_ifs <;> first | rfl | (exfalso; simp only [true_and] at *; omega)
  · intro s o h h1a h1b h2a h2b
    unfold validate_utf8_char
    simp only [Nat.add_zero, h]
    simp only [mask_128 237 (by omega), mask_2lead 237 (by omega),
      mask_3lead 237 (by omega), mask_4lead 237 (by omega),
      mask_low5 237 (by omega), mask_low4 237 (by omega), mask_low3 237 (by omega),
      mask_cont _ (show byteAt s (o + 1) < 256 by omega),
      mask_cont _ (show byteAt s (o + 2) < 256 by omega),
      mask_low6 _ (show byteAt s (o + 1) < 256 by omega)]
    split_ifs <;> first | rfl | (exfalso; simp only [true_and] at *; omega)

theorem C6_witness :
    validate_utf8_char [0xC0, 0x80] 0 = ⟨false, 0⟩ ∧
    validate_utf8_char [0xE0, 0x80, 0x80] 0 = ⟨false, 0⟩ ∧
    validate_utf8_char [0xF0, 0x80, 0x80, 0x80] 0 = ⟨false, 0⟩ ∧
    validate_utf8_char [0xED, 0xA0, 0x80] 0 = ⟨false, 0⟩ :=
  ⟨C6_overlong_surrogate_rejection.1 [0xC0, 0x80] 0 (Or.inl (by decide)),
   C6_overlong_surrogate_rejection.2.1 [0xE0, 0x80, 0x80] 0 (by decide) (by decide)
     (by decide) (by decide),
   C6_overlong_surrogate_rejection.2.2.1 [0xF0, 0x80, 0x80, 0x80] 0 (by decide)
     (by decide) (by decide) (by decide) (by decide) (by decide),
   C6_overlong_surrogate_rejection.2.2.2 [0xED, 0xA0, 0x80] 0 (by decide) (by decide)
     (by decide) (by decide) (by decide)⟩

theorem byteAt_drop (s : List Nat) (o i : Nat) :
    byteAt (s.drop o) i = byteAt s (o + i) := by
  simp [byteAt, List.getD, List.getElem?_drop]

theorem AllBytes_drop {s : List Nat} (hB : AllBytes s) (o : Nat) :
    AllBytes (s.drop o) :=
  fun b hb => hB b (List.mem_of_mem_drop hb)

theorem NoNul_drop {s : List Nat} (hn : NoNul s) (o : Nat) :
    NoNul (s.drop o) :=
  fun b hb => hn b (List.mem_of_mem_drop hb)

/-- Concatenating a left-shifted value with a value fitting in the shifted-in
zero bits is addition (big-endian bit concatenation). -/
theorem lor_shift_eq_add (a b k : Nat) (h : b < 2 ^ k) :
    a <<< k ||| b = a * 2 ^ k + b := by
  rw [Nat.shiftLeft_eq, Nat.mul_comm a (2 ^ k), ← Nat.mul_add_lt_is_or h a,
    Nat.mul_comm]

/-- Modelled from the spec (section 4.9 Code Point Decoder): mask the payload
bits of the leading byte (0x7F, 0x1F, 0x0F, 0x07 for lengths 1-4) and the low
6 bits of each continuation byte, then concatenate the payloads in big-endian
bit order, leading byte most significant; on byte values the payload masks
are residues and bit concatenation is base-2^6 digit composition. -/
def code_point_spec (b : List Nat) (L : Nat) : Nat :=
  match L with
  | 1 => byteAt b 0 % 128
  | 2 => (byteAt b 0 % 32) * 64 + byteAt b 1 % 64
  | 3 => ((byteAt b 0 % 16) * 64 + byteAt b 1 % 64) * 64 + byteAt b 2 % 64
  | 4 => (((byteAt b 0 % 8) * 64 + byteAt b 1 % 64) * 64 + byteAt b 2 % 64) * 64 +
      byteAt b 3 % 64
  | _ => 0

/-- On byte values, unicode_code_point is exactly the mask-and-
concatenate-big-endian decoding. -/
theorem unicode_code_point_eq_spec (cs : List Nat) (L : Nat) (hB : AllBytes cs) :
    unicode_code_point ⟨cs, L⟩ = code_point_spec cs L := by
  have h0 := byteAt_lt_256 hB 0
  have h1 := byteAt_lt_256 hB 1
  have h2 := byteAt_lt_256 hB 2
  have h3 := byteAt_lt_256 hB 3
  rcases L with _ | _ | _ | _ | _ | n
  · rfl
  · simp only [unicode_code_point, code_point_spec]
    rw [mask_low7 _ h0]
  · simp only [unicode_code_point, code_point_spec]
    rw [mask_low5 _ h0, mask_low6 _ h1]
    rw [lor_shift_eq_add _ _ 6 (by omega)]
    ring
  · simp only [unicode_code_point, code_point_spec]
    rw [mask_low4 _ h0, mask_low6 _ h1, mask_low6 _ h2]
    rw [Nat.or_assoc]
    rw [lor_shift_eq_add (byteAt cs 1 % 64) _ 6 (by omega)]
    rw [lor_shift_eq_add _ _ 12 (by omega)]
    ring
  · simp only [unicode_code_point, code_point_spec]
    rw [mask_low3 _ h0, mask_low6 _ h1, mask_low6 _ h2, mask_low6 _ h3]
    rw [Nat.or_assoc, Nat.or_assoc]
    rw [lor_shift_eq_add (byteAt cs 2 % 64) _ 6 (by omega)]
    rw [lor_shift_eq_add (byteAt cs 1 % 64) _ 12 (by omega)]
    rw [lor_shift_eq_add _ _ 18 (by omega)]
    ring
  · rfl

/-- C3 (amended): for every character accepted by the classifier (hence for
every Character taken from a validated view), byte_len L is in {1,2,3,4} and
code_point masks the payload bits (0x7F, 0x1F, 0x0F, 0x07 and 0x3F per
continuation byte) and concatenates them in big-endian bit order; the
resulting value lies in [0, 0x1FFFFF].  (The range claimed by the spec,
[0, 0x10FFFF], is refuted by C3_counterexample: the classifier accepts
leading bytes up to 0xF7.) -/
theorem C3_code_point_decoder (s : List Nat) (o L : Nat) (hB : AllBytes s)
    (hv : (validate_utf8_char s o).valid = true)
    (hL : (validate_utf8_char s o).next_offset = o + L) :
    (1 ≤ L ∧ L ≤ 4) ∧
    unicode_code_point ⟨s.drop o, L⟩ = code_point_spec (s.drop o) L ∧
    unicode_code_point ⟨s.drop o, L⟩ ≤ 0x1FFFFF := by
  have heq := unicode_code_point_eq_spec (s.drop o) L (AllBytes_drop hB o)
  have e0 := byteAt_drop s o 0
  have e1 := byteAt_drop s o 1
  have e2 := byteAt_drop s o 2
  have e3 := byteAt_drop s o 3
  rw [Nat.add_zero] at e0
  rcases validate_utf8_char_dissect hB hv with
    ⟨hn, hb0⟩ | ⟨hn, hb0, hb0b, hb1, hb1b⟩ |
    ⟨hn, hb0, hb0b, hb1, hb1b, hb2, hb2b, hg1, hg2⟩ |
    ⟨hn, hb0, hb0b, hb1, hb1b, hb2, hb2b, hb3, hb3b, hg⟩
  · have hL1 : L = 1 := by omega
    subst hL1
    refine ⟨by omega, heq, ?_⟩
    rw [heq]
    simp only [code_point_spec]
    rw [e0]
    omega
  · have hL2 : L = 2 := by omega
    subst hL2
    refine ⟨by omega, heq, ?_⟩
    rw [heq]
    simp only [code_point_spec]
    rw [e0, e1]
    omega
  · have hL3 : L = 3 := by omega
    subst hL3
    refine ⟨by omega, heq, ?_⟩
    rw [heq]
    simp only [code_point_spec]
    rw [e0, e1, e2]
    omega
  · have hL4 : L = 4 := by omega
    subst hL4
    refine ⟨by omega, heq, ?_⟩
    rw [heq]
    simp only [code_point_spec]
    rw [e0, e1, e2, e3]
    omega

theorem C3_witness :
    AllBytes [0x48] ∧
    (validate_utf8_char [0x48] 0).valid = true ∧
    (validate_utf8_char [0x48] 0).next_offset = 0 + 1 ∧
    ((1 ≤ 1 ∧ 1 ≤ 4) ∧
     unicode_code_point ⟨List.drop 0 [0x48], 1⟩ = code_point_spec (List.drop 0 [0x48]) 1 ∧
     unicode_code_point ⟨List.drop 0 [0x48], 1⟩ ≤ 0x1FFFFF) :=
  ⟨by decide, by decide, by decide,
   C3_code_point_decoder [0x48] 0 1 (by decide) (by decide) (by decide)⟩

/-- C3 counterexample: the four-byte sequence F4 90 80 80 is accepted by the
validator (so it forms a Character of a validated view), and its decoded
code point is 0x110000, beyond the claimed upper bound 0x10FFFF. -/
theorem C3_counterexample :
    validate_utf8 (some [0xF4, 0x90, 0x80, 0x80]) = ⟨true, 4⟩ ∧
    (next_utf8_char ⟨[0xF4, 0x90, 0x80, 0x80]⟩).1 = ⟨[0xF4, 0x90, 0x80, 0x80], 4⟩ ∧
    unicode_code_point ⟨[0xF4, 0x90, 0x80, 0x80], 4⟩ = 0x110000 ∧
    0x10FFFF < unicode_code_point ⟨[0xF4, 0x90, 0x80, 0x80], 4⟩ := by
  refine ⟨?_, by decide, by decide, by decide⟩
  show validate_utf8_loop [0xF4, 0x90, 0x80, 0x80] 0 = ⟨true, 4⟩
  rw [validate_utf8_loop, dif_neg (by decide), dif_pos (by decide),
    show (validate_utf8_char [0xF4, 0x90, 0x80, 0x80] 0).next_offset = 4 from by decide]
  rw [validate_utf8_loop, dif_pos (by decide)]

/-- n-fold application of next_utf8_char, tracking the cursor state. -/
def iterate_next (n : Nat) (it : utf8_char_iter) : utf8_char_iter :=
  match n with
  | 0 => it
  | n + 1 => iterate_next n (next_utf8_char it).2

/-- C9: once a cursor has reached the end-of-buffer sentinel, every call to
next returns the zero-length terminal Character (pointing at the sentinel)
and leaves the cursor unchanged, and this holds for every subsequent call as
well: exhaustion is idempotent and never an error. -/
theorem C9_exhausted_cursor_idempotent (it : utf8_char_iter)
    (h : byteAt it.str 0 = 0) :
    ∀ n : Nat, iterate_next n it = it ∧
      next_utf8_char (iterate_next n it) = (⟨it.str, 0⟩, it) := by
  have hstep : next_utf8_char it = (⟨it.str, 0⟩, it) := by
    unfold next_utf8_char
    rw [if_pos h]
  intro n
  induction n with
  | zero => exact ⟨rfl, hstep⟩
  | succ n ih =>
    have e : iterate_next (n + 1) it = iterate_next n it := by
      simp only [iterate_next, hstep]
    rw [e]
    exact ih

theorem C9_witness :
    iterate_next 3 ⟨[]⟩ = (⟨[]⟩ : utf8_char_iter) ∧
    next_utf8_char (iterate_next 3 ⟨[]⟩) = (⟨[], 0⟩, (⟨[]⟩ : utf8_char_iter)) :=
  C9_exhausted_cursor_idempotent ⟨[]⟩ (by decide) 3

/-- C10: releasing an owned buffer produced by the lossy constructor leaves
the struct in the state {str=NULL, byte_len=0}; releasing an already-released
struct (str=NULL) takes the no-op branch and leaves it unchanged, so release
is idempotent on the struct state and a second release never frees again. -/
theorem C10_release_idempotent :
    (∀ x : Option (List Nat),
        free_owned_utf8_string (make_utf8_string_lossy x) = ⟨none, 0⟩) ∧
    (∀ o : owned_utf8_string, o.str = none → free_owned_utf8_string o = o) ∧
    (∀ x : Option (List Nat),
        free_owned_utf8_string (free_owned_utf8_string (make_utf8_string_lossy x)) =
          free_owned_utf8_string (make_utf8_string_lossy x)) := by
  refine ⟨?_, ?_, ?_⟩
  · rintro (_ | s) <;> rfl
  · rintro ⟨str, len⟩ h
    simp only at h
    subst h
    rfl
  · rintro (_ | s) <;> rfl

theorem C10_witness :
    free_owned_utf8_string (make_utf8_string_lossy (some [0x41])) = ⟨none, 0⟩ ∧
    ((⟨none, 0⟩ : owned_utf8_string).str = none ∧
      free_owned_utf8_string ⟨none, 0⟩ = (⟨none, 0⟩ : owned_utf8_string)) ∧
    free_owned_utf8_string
        (free_owned_utf8_string (make_utf8_string_lossy (some [0x41]))) =
      free_owned_utf8_string (make_utf8_string_lossy (some [0x41])) :=
  ⟨C10_release_idempotent.1 (some [0x41]),
   ⟨rfl, C10_release_idempotent.2.1 ⟨none, 0⟩ rfl⟩,
   C10_release_idempotent.2.2 (some [0x41])⟩

/-- C4 counterexample: for the NULL input the lossy constructor returns the
absent owned buffer (NULL data pointer, zero length) even though no
allocation was attempted, refuting the claim that a NULL input yields a
present buffer. -/
theorem C4_counterexample :
    make_utf8_string_lossy none = ⟨none, 0⟩ ∧
    (make_utf8_string_lossy none).str = none :=
  ⟨rfl, rfl⟩

/-- C4 (amended): in the modelled executions (allocation succeeds), the lossy
constructor returns a present owned buffer for every non-NULL input, and the
absent buffer {NULL, 0} exactly for the NULL input. -/
theorem C4_lossy_present (s : List Nat) :
    (make_utf8_string_lossy (some s)).str = some (lossy_loop s 0) ∧
    make_utf8_string_lossy none = ⟨none, 0⟩ :=
  ⟨rfl, rfl⟩

/-- C7: the lossy repair loop copies each classifier-valid character span
verbatim and, at each byte where classification fails, writes exactly the
three replacement bytes EF BF BD and advances by exactly one byte before
re-classifying; in particular the input C0 C0 produces exactly the six bytes
EF BF BD EF BF BD. -/
theorem C7_lossy_replacement :
    (∀ (s : List Nat) (o : Nat), o < strlen s →
        (validate_utf8_char s o).valid = true →
        lossy_loop s o =
          (s.drop o).take ((validate_utf8_char s o).next_offset - o) ++
            lossy_loop s (validate_utf8_char s o).next_offset) ∧
    (∀ (s : List Nat) (o : Nat), o < strlen s →
        (validate_utf8_char s o).valid = false →
        lossy_loop s o = 0xEF :: 0xBF :: 0xBD :: lossy_loop s (o + 1)) ∧
    make_utf8_string_lossy (some [0xC0, 0xC0]) =
      ⟨some [0xEF, 0xBF, 0xBD, 0xEF, 0xBF, 0xBD], 6⟩ := by
  refine ⟨?_, ?_, ?_⟩
  · intro s o h hv
    conv_lhs => rw [lossy_loop]
    rw [dif_pos h, dif_pos hv]
  · intro s o h hv
    conv_lhs => rw [lossy_loop]
    rw [dif_pos h, dif_neg (by simp [hv])]
  · have e : lossy_loop [0xC0, 0xC0] 0 = [0xEF, 0xBF, 0xBD, 0xEF, 0xBF, 0xBD] := by
      rw [lossy_loop, dif_pos (by decide), dif_neg (by decide)]
      rw [lossy_loop, dif_pos (by decide), dif_neg (by decide)]
      rw [lossy_loop, dif_neg (by decide)]
    simp [make_utf8_string_lossy, e]

theorem C7_witness :
    (0 < strlen [0x41, 0xC0] ∧
      (validate_utf8_char [0x41, 0xC0] 0).valid = true ∧
      lossy_loop [0x41, 0xC0] 0 =
        (List.drop 0 [0x41, 0xC0]).take
            ((validate_utf8_char [0x41, 0xC0] 0).next_offset - 0) ++
          lossy_loop [0x41, 0xC0] (validate_utf8_char [0x41, 0xC0] 0).next_offset) ∧
    (0 < strlen [0xC0] ∧
      (validate_utf8_char [0xC0] 0).valid = false ∧
      lossy_loop [0xC0] 0 = 0xEF :: 0xBF :: 0xBD :: lossy_loop [0xC0] (0 + 1)) :=
  ⟨⟨by decide, by decide,
     C7_lossy_replacement.1 [0x41, 0xC0] 0 (by decide) (by decide)⟩,
   ⟨by decide, by decide,
     C7_lossy_replacement.2.1 [0xC0] 0 (by decide) (by decide)⟩⟩

theorem byteAt_append_right (c u : List Nat) (j : Nat) :
    byteAt (c ++ u) (c.length + j) = byteAt u j := by
  simp [byteAt, List.getD]
  rw [List.getElem?_append_right (by omega)]
  simp

theorem byteAt_append_left {c : List Nat} (u : List Nat) {j : Nat}
    (h : j < c.length) : byteAt (c ++ u) j = byteAt c j := by
  simp [byteAt, List.getD, List.getElem?_append, h]

theorem byteAt_take {s : List Nat} {k i : Nat} (h : i < k) :
    byteAt (s.take k) i = byteAt s i := by
  simp [byteAt, List.getD, List.getElem?_take, h]

/-- The classifier result depends only on the four bytes at the offset. -/
theorem validate_utf8_char_congr {s t : List Nat} {o p : Nat}
    (h : ∀ i < 4, byteAt s (o + i) = byteAt t (p + i)) :
    (validate_utf8_char s o).valid = (validate_utf8_char t p).valid ∧
    (validate_utf8_char s o).next_offset + p =
      (validate_utf8_char t p).next_offset + o := by
  have h0 := h 0 (by omega)
  have h1 := h 1 (by omega)
  have h2 := h 2 (by omega)
  have h3 := h 3 (by omega)
  rw [Nat.add_zero, Nat.add_zero] at h0
  unfold validate_utf8_char
  simp only [Nat.add_zero, h0, h1, h2, h3]
  split_ifs <;> refine ⟨rfl, ?_⟩ <;> simp <;> omega

/-- A classifier success carries over to any position of any buffer that
agrees on the bytes of the accepted character (a success only ever reads the
bytes of the character itself). -/
theorem valid_char_transfer {s t : List Nat} {o p L : Nat}
    (hBs : AllBytes s) (hBt : AllBytes t)
    (hv : (validate_utf8_char s o).valid = true)
    (hn : (validate_utf8_char s o).next_offset = o + L)
    (heq : ∀ i, i < L → byteAt s (o + i) = byteAt t (p + i)) :
    validate_utf8_char t p = ⟨true, p + L⟩ := by
  have hmaster := validate_utf8_char_eq t p (byteAt_lt_256 hBt p)
    (byteAt_lt_256 hBt (p + 1)) (byteAt_lt_256 hBt (p + 2)) (byteAt_lt_256 hBt (p + 3))
  rcases validate_utf8_char_dissect hBs hv with
    ⟨hnn, hb0⟩ | ⟨hnn, hb0, hb0b, hb1, hb1b⟩ |
    ⟨hnn, hb0, hb0b, hb1, hb1b, hb2, hb2b, hg1, hg2⟩ |
    ⟨hnn, hb0, hb0b, hb1, hb1b, hb2, hb2b, hb3, hb3b, hg⟩
  · have hL : L = 1 := by omega
    subst hL
    have e0 := heq 0 (by omega)
    rw [Nat.add_zero, Nat.add_zero] at e0
    rw [hmaster, if_pos (by omega)]
  · have hL : L = 2 := by omega
    subst hL
    have e0 := heq 0 (by omega)
    rw [Nat.add_zero, Nat.add_zero] at e0
    have e1 := heq 1 (by omega)
    rw [hmaster, if_neg (by omega), if_pos (by omega), if_neg (by omega)]
  · have hL : L = 3 := by omega
    subst hL
    have e0 := heq 0 (by omega)
    rw [Nat.add_zero, Nat.add_zero] at e0
    have e1 := heq 1 (by omega)
    have e2 := heq 2 (by omega)
    rw [hmaster, if_neg (by omega), if_neg (by omega), if_pos (by omega),
      if_neg (by omega), if_neg (by omega)]
  · have hL : L = 4 := by omega
    subst hL
    have e0 := heq 0 (by omega)
    rw [Nat.add_zero, Nat.add_zero] at e0
    have e1 := heq 1 (by omega)
    have e2 := heq 2 (by omega)
    have e3 := heq 3 (by omega)
    rw [hmaster, if_neg (by omega), if_neg (by omega), if_neg (by omega),
      if_pos (by omega), if_neg (by omega)]

/-- Chains compose end to end. -/
theorem EncodesChars.trans {s : List Nat} {a b c n m : Nat}
    (h1 : EncodesChars s a b n) (h2 : EncodesChars s b c m) :
    EncodesChars s a c (n + m) := by
  induction h1 with
  | nil => simpa using h2
  | cons hv ht ih =>
    rename_i a1 b1 n1
    have e : n1 + 1 + m = (n1 + m) + 1 := by omega
    rw [e]
    exact EncodesChars.cons hv (ih h2)

/-- A chain of a buffer, shifted past a prepended buffer. -/
theorem EncodesChars.append_left {u : List Nat} {a b n : Nat} (c : List Nat)
    (h : EncodesChars u a b n) :
    EncodesChars (c ++ u) (c.length + a) (c.length + b) n := by
  induction h with
  | nil a => exact EncodesChars.nil _
  | cons hv ht ih =>
    rename_i a1 b1 n1
    have hb : ∀ i, i < 4 → byteAt u (a1 + i) = byteAt (c ++ u) (c.length + a1 + i) := by
      intro i _
      rw [Nat.add_assoc, byteAt_append_right]
    obtain ⟨hveq, hneq⟩ := validate_utf8_char_congr hb
    have hv2 : (validate_utf8_char (c ++ u) (c.length + a1)).valid = true := by
      rw [← hveq, hv]
    refine EncodesChars.cons hv2 ?_
    have e : (validate_utf8_char (c ++ u) (c.length + a1)).next_offset =
        c.length + (validate_utf8_char u a1).next_offset := by omega
    rw [e]
    exact ih

/-- A chain lying inside a left factor of an append is a chain of the whole
append. -/
theorem EncodesChars.append_right {c : List Nat} {a b n : Nat} (u : List Nat)
    (hBc : AllBytes c) (hBcu : AllBytes (c ++ u))
    (h : EncodesChars c a b n) (hble : b ≤ c.length) :
    EncodesChars (c ++ u) a b n := by
  induction h with
  | nil a => exact EncodesChars.nil _
  | cons hv ht ih =>
    rename_i a1 b1 n1
    have hprog := validate_utf8_char_progress c a1 hv
    have hle := ht.le
    have hn : (validate_utf8_char c a1).next_offset =
        a1 + ((validate_utf8_char c a1).next_offset - a1) := by omega
    have heq : ∀ i, i < (validate_utf8_char c a1).next_offset - a1 →
        byteAt c (a1 + i) = byteAt (c ++ u) (a1 + i) := by
      intro i hi
      rw [byteAt_append_left u (by omega)]
    have htr := valid_char_transfer hBc hBcu hv hn heq
    refine EncodesChars.cons (by rw [htr]) ?_
    have e : (validate_utf8_char (c ++ u) a1).next_offset =
        (validate_utf8_char c a1).next_offset := by rw [htr]; simp; omega
    rw [e]
    exact ih hble

theorem AllBytes_append {c u : List Nat} (hBc : AllBytes c) (hBu : AllBytes u) :
    AllBytes (c ++ u) := by
  intro b hb
  rcases List.mem_append.1 hb with h | h
  · exact hBc b h
  · exact hBu b h

theorem NoNul_append {c u : List Nat} (hc : NoNul c) (hu : NoNul u) :
    NoNul (c ++ u) := by
  intro b hb
  rcases List.mem_append.1 hb with h | h
  · exact hc b h
  · exact hu b h

/-- Two fully-chained buffers concatenate to a fully-chained buffer. -/
theorem EncodesChars.concat {c u : List Nat} {n m : Nat}
    (hBc : AllBytes c) (hBu : AllBytes u)
    (hc : EncodesChars c 0 c.length n) (hu : EncodesChars u 0 u.length m) :
    EncodesChars (c ++ u) 0 (c ++ u).length (n + m) := by
  have h1 := hc.append_right u hBc (AllBytes_append hBc hBu) Nat.le.refl
  have h2 := hu.append_left c
  rw [Nat.add_zero] at h2
  have e : (c ++ u).length = c.length + u.length := by simp
  rw [e]
  exact h1.trans h2

/-- The buffer produced by the lossy repair loop is always a chain of
classifier-valid characters, with NUL-free bytes below 256. -/
theorem lossy_loop_chain {s : List Nat} (hnz : NoNul s) (hB : AllBytes s) :
    ∀ m o, s.length - o ≤ m →
      (∃ n, EncodesChars (lossy_loop s o) 0 (lossy_loop s o).length n) ∧
      AllBytes (lossy_loop s o) ∧ NoNul (lossy_loop s o) := by
  have hsl : strlen s = s.length := strlen_eq_length hnz
  intro m
  induction m with
  | zero =>
    intro o hmo
    rw [lossy_loop, dif_neg (by omega)]
    exact ⟨⟨0, EncodesChars.nil 0⟩, ⟨by decide, by decide⟩⟩
  | succ m ih =>
    intro o hmo
    by_cases h : o < strlen s
    · have hlen : o < s.length := by omega
      rw [lossy_loop, dif_pos h]
      by_cases hv : (validate_utf8_char s o).valid = true
      · rw [dif_pos hv]
        have hprog := validate_utf8_char_progress s o hv
        have h0 : byteAt s o ≠ 0 := fun he => hnz _ (byteAt_mem hlen) he
        have hle := validate_utf8_char_next_le h0 hv
        obtain ⟨⟨n, hch⟩, hBr, hnzr⟩ := ih (validate_utf8_char s o).next_offset (by omega)
        have hclen : ((s.drop o).take ((validate_utf8_char s o).next_offset - o)).length =
            (validate_utf8_char s o).next_offset - o := by
          simp
          omega
        have hsub : ∀ b ∈ (s.drop o).take ((validate_utf8_char s o).next_offset - o),
            b ∈ s := fun b hb => List.mem_of_mem_drop (List.mem_of_mem_take hb)
        have hBc : AllBytes ((s.drop o).take ((validate_utf8_char s o).next_offset - o)) :=
          fun b hb => hB b (hsub b hb)
        have hnzc : NoNul ((s.drop o).take ((validate_utf8_char s o).next_offset - o)) :=
          fun b hb => hnz b (hsub b hb)
        have hchar := valid_char_transfer (p := 0) hB hBc hv
          (show (validate_utf8_char s o).next_offset =
            o + ((validate_utf8_char s o).next_offset - o) by omega)
          (by
            intro i hi
            rw [Nat.zero_add, byteAt_take hi, byteAt_drop])
        have hcchain : EncodesChars
            ((s.drop o).take ((validate_utf8_char s o).next_offset - o)) 0
            ((s.drop o).take ((validate_utf8_char s o).next_offset - o)).length 1 := by
          refine EncodesChars.cons (by rw [hchar]) ?_
          rw [hchar]
          simp only [Nat.zero_add]
          rw [hclen]
          exact EncodesChars.nil _
        exact ⟨⟨1 + n, EncodesChars.concat hBc hBr hcchain hch⟩,
          AllBytes_append hBc hBr, NoNul_append hnzc hnzr⟩
      · rw [dif_neg hv]
        obtain ⟨⟨n, hch⟩, hBr, hnzr⟩ := ih (o + 1) (by omega)
        have hc1 : (validate_utf8_char [0xEF, 0xBF, 0xBD] 0).valid = true := by decide
        have hc2 : (validate_utf8_char [0xEF, 0xBF, 0xBD] 0).next_offset = 3 := by decide
        have hcchain : EncodesChars [0xEF, 0xBF, 0xBD] 0 3 1 :=
          EncodesChars.cons hc1 (by rw [hc2]; exact EncodesChars.nil 3)
        have hBc : AllBytes [0xEF, 0xBF, 0xBD] := by decide
        have hnzc : NoNul [0xEF, 0xBF, 0xBD] := by decide
        exact ⟨⟨1 + n, EncodesChars.concat hBc hBr hcchain hch⟩,
          AllBytes_append hBc hBr, NoNul_append hnzc hnzr⟩
    · rw [lossy_loop, dif_neg h]
      exact ⟨⟨0, EncodesChars.nil 0⟩, ⟨by decide, by decide⟩⟩

/-- A buffer fully chained into valid characters passes the validator. -/
theorem validate_utf8_loop_of_chain {s : List Nat} (hnz : NoNul s) {n : Nat}
    (h : EncodesChars s 0 s.length n) :
    validate_utf8_loop s 0 = ⟨true, s.length⟩ := by
  have hspec := validate_utf8_loop_spec hnz (Nat.zero_le s.length)
  by_cases hval : (validate_utf8_loop s 0).valid = true
  · obtain ⟨h1, _⟩ := hspec.1 hval
    rcases hres : validate_utf8_loop s 0 with ⟨v, u⟩
    rw [hres] at hval h1
    simp only at hval h1
    rw [hval, h1]
  · have hf : (validate_utf8_loop s 0).valid = false := by
      cases hres : (validate_utf8_loop s 0).valid
      · rfl
      · exact absurd hres hval
    obtain ⟨⟨k, hk⟩, hstop, hlt⟩ := hspec.2 hf
    have := chain_stops hk hstop h
    omega

/-- C2: for every NUL-terminated input, the buffer produced by
make_utf8_string_lossy is itself valid UTF-8: validating the output yields
valid=true with valid_upto equal to the byte_len of the output. -/
theorem C2_lossy_output_valid (s : List Nat) (hnz : NoNul s) (hB : AllBytes s) :
    validate_utf8 (make_utf8_string_lossy (some s)).str =
      ⟨true, (make_utf8_string_lossy (some s)).byte_len⟩ := by
  obtain ⟨⟨n, hch⟩, hBo, hnzo⟩ := lossy_loop_chain hnz hB s.length 0 (by omega)
  exact validate_utf8_loop_of_chain hnzo hch

theorem C2_witness :
    NoNul [0x41, 0xC0] ∧ AllBytes [0x41, 0xC0] ∧
    validate_utf8 (make_utf8_string_lossy (some [0x41, 0xC0])).str =
      ⟨true, (make_utf8_string_lossy (some [0x41, 0xC0])).byte_len⟩ :=
  ⟨by decide, by decide, C2_lossy_output_valid [0x41, 0xC0] (by decide) (by decide)⟩

theorem drop_eq_byteAt_cons {u : List Nat} {i : Nat} (h : i < u.length) :
    u.drop i = byteAt u i :: u.drop (i + 1) := by
  rw [byteAt_eq_getElem h]
  exact List.drop_eq_getElem_cons h

theorem not_boundary_of_cont {b : Nat} (h1 : 128 ≤ b) (h2 : b ≤ 191) :
    is_utf8_char_boundary b = false := by
  simp [is_utf8_char_boundary]
  omega

/-- The advance loop halts immediately on a boundary byte (or the
terminator). -/
theorem skip_at_boundary {u : List Nat} {i : Nat}
    (h : is_utf8_char_boundary (byteAt u i) = true) :
    skip_to_boundary (u.drop i) = (u.drop i, 0) := by
  by_cases hl : i < u.length
  · rw [drop_eq_byteAt_cons hl]
    simp only [skip_to_boundary]
    rw [if_pos h]
  · rw [List.drop_eq_nil_of_le (by omega)]
    simp [skip_to_boundary]

/-- The advance loop steps over one continuation byte. -/
theorem skip_step {u : List Nat} {i : Nat} (hl : i < u.length)
    (hnb : is_utf8_char_boundary (byteAt u i) = false) :
    skip_to_boundary (u.drop i) =
      ((skip_to_boundary (u.drop (i + 1))).1,
       (skip_to_boundary (u.drop (i + 1))).2 + 1) := by
  rw [drop_eq_byteAt_cons hl]
  simp only [skip_to_boundary]
  rw [if_neg (by simp [hnb])]

/-- The advance loop runs from i to the next boundary at L, skipping the
continuation bytes in between. -/
theorem skip_cont_range_aux {u : List Nat} {L : Nat}
    (hbd : is_utf8_char_boundary (byteAt u L) = true) :
    ∀ m i, L - i = m → i ≤ L →
      (∀ j, i ≤ j → j < L →
        128 ≤ byteAt u j ∧ byteAt u j ≤ 191 ∧ j < u.length) →
      skip_to_boundary (u.drop i) = (u.drop L, L - i) := by
  intro m
  induction m with
  | zero =>
    intro i he hle hcont
    have hiL : i = L := by omega
    subst hiL
    rw [skip_at_boundary hbd, he]
  | succ m ih =>
    intro i he hle hcont
    have hiL : i < L := by omega
    obtain ⟨hc1, hc2, hclen⟩ := hcont i (Nat.le_of_eq rfl) hiL
    rw [skip_step hclen (not_boundary_of_cont hc1 hc2)]
    rw [ih (i + 1) (by omega) (by omega) (fun j hj1 hj2 => hcont j (by omega) hj2)]
    simp only [Prod.mk.injEq]
    exact ⟨trivial, by omega⟩

theorem skip_cont_range {u : List Nat} {i L : Nat} (hiL : i ≤ L)
    (hbd : is_utf8_char_boundary (byteAt u L) = true)
    (hcont : ∀ j, i ≤ j → j < L →
      128 ≤ byteAt u j ∧ byteAt u j ≤ 191 ∧ j < u.length) :
    skip_to_boundary (u.drop i) = (u.drop L, L - i) :=
  skip_cont_range_aux hbd (L - i) i rfl hiL hcont

/-- On a validated cursor position, next_utf8_char returns exactly the
character span of the classifier and advances to its end: the accepted
trailing bytes of the character are continuations (not boundaries) and the byte
at its end is a boundary or the terminator. -/
theorem next_char_step {u : List Nat} (hB : AllBytes u)
    (h0 : byteAt u 0 ≠ 0)
    (hv : (validate_utf8_char u 0).valid = true)
    (hbd : is_utf8_char_boundary (byteAt u (validate_utf8_char u 0).next_offset) = true) :
    next_utf8_char ⟨u⟩ =
      (⟨u, (validate_utf8_char u 0).next_offset⟩,
       ⟨u.drop (validate_utf8_char u 0).next_offset⟩) := by
  have hlen0 := lt_length_of_byteAt_ne_zero h0
  unfold next_utf8_char
  rw [if_neg h0]
  have hcontall : ∀ j, 1 ≤ j → j < (validate_utf8_char u 0).next_offset →
      128 ≤ byteAt u j ∧ byteAt u j ≤ 191 ∧ j < u.length := by
    rcases validate_utf8_char_dissect hB hv with
      ⟨hnn, hb0⟩ | ⟨hnn, hb0, hb0b, hb1, hb1b⟩ |
      ⟨hnn, hb0, hb0b, hb1, hb1b, hb2, hb2b, hg1, hg2⟩ |
      ⟨hnn, hb0, hb0b, hb1, hb1b, hb2, hb2b, hb3, hb3b, hg⟩ <;>
    rw [hnn] <;>
    simp only [Nat.zero_add] at * <;>
    intro j hj1 hj2 <;>
    interval_cases j
    · exact ⟨hb1, hb1b, lt_length_of_byteAt_ne_zero (by omega)⟩
    · exact ⟨hb1, hb1b, lt_length_of_byteAt_ne_zero (by omega)⟩
    · exact ⟨hb2, hb2b, lt_length_of_byteAt_ne_zero (by omega)⟩
    · exact ⟨hb1, hb1b, lt_length_of_byteAt_ne_zero (by omega)⟩
    · exact ⟨hb2, hb2b, lt_length_of_byteAt_ne_zero (by omega)⟩
    · exact ⟨hb3, hb3b, lt_length_of_byteAt_ne_zero (by omega)⟩
  have hprog := validate_utf8_char_progress u 0 hv
  rw [skip_cont_range (by omega) hbd hcontall]
  simp only [Prod.mk.injEq, utf8_char.mk.injEq, utf8_char_iter.mk.injEq]
  refine ⟨⟨trivial, by omega⟩, trivial⟩

/-- Draining the cursor over a validated buffer counts exactly the characters of the chain. -/
theorem count_loop_of_chain {s : List Nat} (hnz : NoNul s) (hB : AllBytes s) :
    ∀ n o, EncodesChars s o s.length n → utf8_char_count_loop (s.drop o) = n := by
  intro n
  induction n with
  | zero =>
    intro o h
    have ho := h.zero_inv
    rw [ho, List.drop_eq_nil_of_le (Nat.le_of_eq rfl)]
    rw [utf8_char_count_loop, dif_neg (by decide)]
  | succ n ih =>
    intro o h
    obtain ⟨hv, ht⟩ := h.pos_inv
    have hle := ht.le
    have hprog := validate_utf8_char_progress s o hv
    have holt : o < s.length := by omega
    have hbytes : ∀ i, i < 4 → byteAt s (o + i) = byteAt (s.drop o) (0 + i) := by
      intro i _
      rw [Nat.zero_add, byteAt_drop]
    obtain ⟨hveq, hneq⟩ := validate_utf8_char_congr hbytes
    have hv2 : (validate_utf8_char (s.drop o) 0).valid = true := by
      rw [← hveq]; exact hv
    have hn2 : (validate_utf8_char (s.drop o) 0).next_offset =
        (validate_utf8_char s o).next_offset - o := by omega
    have hbd : is_utf8_char_boundary
        (byteAt (s.drop o) (validate_utf8_char (s.drop o) 0).next_offset) = true := by
      rw [byteAt_drop, hn2]
      have e : o + ((validate_utf8_char s o).next_offset - o) =
          (validate_utf8_char s o).next_offset := by omega
      rw [e]
      rcases Nat.lt_or_ge (validate_utf8_char s o).next_offset s.length with hlt | hge
      · rcases n with _ | n
        · have := ht.zero_inv
          omega
        · obtain ⟨hv3, _⟩ := ht.pos_inv
          rcases validate_utf8_char_dissect hB hv3 with
            ⟨_, hb⟩ | ⟨_, hb, _⟩ | ⟨_, hb, _⟩ | ⟨_, hb, _⟩ <;>
            (simp [is_utf8_char_boundary]; omega)
      · rw [byteAt_eq_zero_of_le hge]
        decide
    have h0 : byteAt (s.drop o) 0 ≠ 0 := by
      rw [byteAt_drop, Nat.add_zero]
      exact fun he => hnz _ (byteAt_mem holt) he
    have hstep := next_char_step (AllBytes_drop hB o) h0 hv2 hbd
    rw [utf8_char_count_loop, dif_pos (by rw [hstep]; simp only; omega)]
    rw [hstep]
    simp only [List.drop_drop]
    rw [hn2]
    have e : o + ((validate_utf8_char s o).next_offset - o) =
        (validate_utf8_char s o).next_offset := by omega
    rw [e, ih _ ht]

/-- C5 (amended): count drains the cursor to the NUL of the underlying buffer
terminator, so for every view over a fully validated byte range it returns
the number of scalar values of that whole range — regardless of the byte_len
field, which the iterator never consults.  For views produced by
make_utf8_string (whose byte_len is the full length) this is the number of
scalar values in [0, byte_len); for a proper sub-slice it is not (see
C5_counterexample). -/
theorem C5_char_count (l : List Nat) (hnz : NoNul l) (hB : AllBytes l)
    (n : Nat) (h : EncodesChars l 0 l.length n) (L : Nat) :
    utf8_char_count ⟨some l, L⟩ = n := by
  have hc := count_loop_of_chain hnz hB n 0 h
  simpa [utf8_char_count, make_utf8_char_iter] using hc

theorem C5_witness :
    NoNul [104, 105] ∧ AllBytes [104, 105] ∧
    EncodesChars [104, 105] 0 (List.length [104, 105]) 2 ∧
    utf8_char_count ⟨some [104, 105], 2⟩ = 2 := by
  have hch : EncodesChars [104, 105] 0 (List.length [104, 105]) 2 := by
    refine EncodesChars.cons (by decide) ?_
    rw [show (validate_utf8_char [104, 105] 0).next_offset = 1 from by decide]
    refine EncodesChars.cons (by decide) ?_
    rw [show (validate_utf8_char [104, 105] 1).next_offset = 2 from by decide]
    exact EncodesChars.nil 2
  exact ⟨by decide, by decide, hch,
    C5_char_count [104, 105] (by decide) (by decide) 2 hch 2⟩

/-- C5 counterexample: [97, 98] is a validated two-character buffer; slicing
its first byte yields a view with byte_len 1 whose byte range [0, 1) encodes
exactly one scalar value, yet count returns 2 — the iterator runs to the
underlying NUL terminator, ignoring the byte_len of the slice. -/
theorem C5_counterexample :
    make_utf8_string (some [97, 98]) = ⟨some [97, 98], 2⟩ ∧
    slice_utf8_string ⟨some [97, 98], 2⟩ 0 1 = ⟨some [97, 98], 1⟩ ∧
    utf8_char_count (slice_utf8_string ⟨some [97, 98], 2⟩ 0 1) = 2 ∧
    EncodesChars [97, 98] 0 1 1 ∧
    ¬EncodesChars [97, 98] 0 1 2 := by
  have hval : validate_utf8_loop [97, 98] 0 = ⟨true, 2⟩ := by
    rw [validate_utf8_loop, dif_neg (by decide), dif_pos (by decide),
      show (validate_utf8_char [97, 98] 0).next_offset = 1 from by decide]
    rw [validate_utf8_loop, dif_neg (by decide), dif_pos (by decide),
      show (validate_utf8_char [97, 98] 1).next_offset = 2 from by decide]
    rw [validate_utf8_loop, dif_pos (by decide)]
  have hslice : slice_utf8_string ⟨some [97, 98], 2⟩ 0 1 = ⟨some [97, 98], 1⟩ := by
    decide
  have hcount : utf8_char_count_loop [97, 98] = 2 := by
    rw [utf8_char_count_loop, dif_pos (by decide),
      show (next_utf8_char ⟨[97, 98]⟩).2.str = [98] from by decide]
    rw [utf8_char_count_loop, dif_pos (by decide),
      show (next_utf8_char ⟨[98]⟩).2.str = ([] : List Nat) from by decide]
    rw [utf8_char_count_loop, dif_neg (by decide)]
  refine ⟨?_, hslice, ?_, ?_, ?_⟩
  · simp [make_utf8_string, validate_utf8, hval]
  · rw [hslice]
    exact hcount
  · refine EncodesChars.cons (by decide) ?_
    rw [show (validate_utf8_char [97, 98] 0).next_offset = 1 from by decide]
    exact EncodesChars.nil 1
  · intro h
    obtain ⟨h1, h2⟩ := h.pos_inv
    rw [show (validate_utf8_char [97, 98] 0).next_offset = 1 from by decide] at h2
    obtain ⟨h3, h4⟩ := h2.pos_inv
    rw [show (validate_utf8_char [97, 98] 1).next_offset = 2 from by decide] at h4
    exact absurd h4.zero_inv (by decide)

/-- In a validated buffer, every position (up to the end) whose byte passes
the Boundary Predicate splits the chain: it is the end of a whole number of
characters and the start of the remaining ones.  (Interior bytes of a
character are continuation bytes, which the predicate rejects.) -/
theorem boundary_reachable {s : List Nat} (hB : AllBytes s) :
    ∀ n a, EncodesChars s a s.length n → ∀ i, a ≤ i → i ≤ s.length →
      is_utf8_char_boundary (byteAt s i) = true →
      ∃ k m, EncodesChars s a i k ∧ EncodesChars s i s.length m := by
  intro n
  induction n with
  | zero =>
    intro a h i hai hil hbd
    have ha := h.zero_inv
    have hia : i = a := by omega
    subst hia
    exact ⟨0, 0, EncodesChars.nil i, h⟩
  | succ n ih =>
    intro a h i hai hil hbd
    obtain ⟨hv, ht⟩ := h.pos_inv
    have hprog := validate_utf8_char_progress s a hv
    by_cases hcase : (validate_utf8_char s a).next_offset ≤ i
    · obtain ⟨k, m, hk, hm⟩ := ih _ ht i hcase hil hbd
      exact ⟨k + 1, m, EncodesChars.cons hv hk, hm⟩
    · by_cases hia : i = a
      · subst hia
        exact ⟨0, n + 1, EncodesChars.nil i, h⟩
      · exfalso
        rcases validate_utf8_char_dissect hB hv with
          ⟨hnn, hb0⟩ | ⟨hnn, hb0, hb0b, hb1, hb1b⟩ |
          ⟨hnn, hb0, hb0b, hb1, hb1b, hb2, hb2b, hg1, hg2⟩ |
          ⟨hnn, hb0, hb0b, hb1, hb1b, hb2, hb2b, hb3, hb3b, hg⟩
        · omega
        · have hi1 : i = a + 1 := by omega
          rw [hi1, not_boundary_of_cont hb1 hb1b] at hbd
          cases hbd
        · have hi1 : i = a + 1 ∨ i = a + 2 := by omega
          rcases hi1 with hi1 | hi1 <;> rw [hi1] at hbd
          · rw [not_boundary_of_cont hb1 hb1b] at hbd; cases hbd
          · rw [not_boundary_of_cont hb2 hb2b] at hbd; cases hbd
        · have hi1 : i = a + 1 ∨ i = a + 2 ∨ i = a + 3 := by omega
          rcases hi1 with hi1 | hi1 | hi1 <;> rw [hi1] at hbd
          · rw [not_boundary_of_cont hb1 hb1b] at hbd; cases hbd
          · rw [not_boundary_of_cont hb2 hb2b] at hbd; cases hbd
          · rw [not_boundary_of_cont hb3 hb3b] at hbd; cases hbd

/-- C8 (amended): when the size_t sum of the clamped start and len does not
wrap (clamped start + len below 2^64, with byte_len a size_t value), slice
first clamps start_byte to [0, byte_len] and end = start_byte + len to
byte_len, then returns the view over bytes [start_byte, end) of the same
underlying buffer iff both clamped offsets satisfy the Boundary Predicate,
and the absent view (NULL, 0) otherwise; on a validated view a present
result never splits a multi-byte character: the two endpoints of the range
cut the buffer into whole characters.  (Without the no-wrap hypothesis the
end clamp is skipped after the sum wraps modulo 2^64 and the subtraction
underflows, see C8_counterexample.) -/
theorem C8_slice_clamp_boundary (l : List Nat) (L start len : Nat)
    (hL : L < 2 ^ 64) (hw : min start L + len < 2 ^ 64) :
    (is_utf8_char_boundary (byteAt l (min start L)) = true ∧
       is_utf8_char_boundary (byteAt l (min (min start L + len) L)) = true →
       slice_utf8_string ⟨some l, L⟩ start len =
         ⟨some (l.drop (min start L)), min (min start L + len) L - min start L⟩) ∧
    (¬(is_utf8_char_boundary (byteAt l (min start L)) = true ∧
        is_utf8_char_boundary (byteAt l (min (min start L + len) L)) = true) →
       slice_utf8_string ⟨some l, L⟩ start len = ⟨none, 0⟩) ∧
    (NoNul l → AllBytes l → (∃ n, EncodesChars l 0 l.length n) → L = l.length →
       ∀ d bl, slice_utf8_string ⟨some l, L⟩ start len = ⟨some d, bl⟩ →
       ∃ k m, EncodesChars l 0 (min start L) k ∧
         EncodesChars l (min start L) (min (min start L + len) L) m) := by
  have e1 : (if start > L then L else start) = min start L := by
    split <;> omega
  have he0 : (min start L + len) % size_t_mod = min start L + len := by
    unfold size_t_mod
    exact Nat.mod_eq_of_lt hw
  have e2 : (if (min start L + len) % size_t_mod > L then L
      else (min start L + len) % size_t_mod) = min (min start L + len) L := by
    rw [he0]
    split <;> omega
  have e3 : (min (min start L + len) L + size_t_mod - min start L) % size_t_mod =
      min (min start L + len) L - min start L := by
    unfold size_t_mod
    have h3 : min (min start L + len) L + 2 ^ 64 - min start L =
        (min (min start L + len) L - min start L) + 2 ^ 64 := by omega
    rw [h3, Nat.add_mod_right]
    exact Nat.mod_eq_of_lt (by omega)
  have hpos : is_utf8_char_boundary (byteAt l (min start L)) = true ∧
      is_utf8_char_boundary (byteAt l (min (min start L + len) L)) = true →
      slice_utf8_string ⟨some l, L⟩ start len =
        ⟨some (l.drop (min start L)), min (min start L + len) L - min start L⟩ := by
    intro ⟨h1, h2⟩
    simp only [slice_utf8_string, e1, e2, e3]
    rw [if_pos (by rw [h1, h2]; rfl)]
  have hneg : ¬(is_utf8_char_boundary (byteAt l (min start L)) = true ∧
      is_utf8_char_boundary (byteAt l (min (min start L + len) L)) = true) →
      slice_utf8_string ⟨some l, L⟩ start len = ⟨none, 0⟩ := by
    intro h
    simp only [slice_utf8_string, e1, e2, e3]
    rw [if_neg (fun hc => h (by simpa [Bool.and_eq_true] using hc))]
  refine ⟨hpos, hneg, ?_⟩
  intro hnz hB ⟨n, hch⟩ hLl d bl hres
  by_cases hbd : is_utf8_char_boundary (byteAt l (min start L)) = true ∧
      is_utf8_char_boundary (byteAt l (min (min start L + len) L)) = true
  · obtain ⟨h1, h2⟩ := hbd
    have hs0 : min start L ≤ l.length := by omega
    have he0l : min (min start L + len) L ≤ l.length := by omega
    obtain ⟨k1, m1, hk1, hm1⟩ :=
      boundary_reachable hB n 0 hch (min start L) (Nat.zero_le _) hs0 h1
    obtain ⟨k2, m2, hk2, hm2⟩ :=
      boundary_reachable hB n 0 hch (min (min start L + len) L) (Nat.zero_le _) he0l h2
    refine ⟨k1, k2 - k1, hk1, ?_⟩
    rcases Nat.le_total k1 k2 with hk | hk
    · exact EncodesChars.split hk1 hk2 hk
    · have hse := (EncodesChars.split hk2 hk1 hk).le
      have hs_le : min start L ≤ min (min start L + len) L := by omega
      have heq : min start L = min (min start L + len) L := by omega
      rw [← heq]
      have hkk : k1 = k2 := EncodesChars.unique hk1 (heq ▸ hk2)
      rw [hkk, Nat.sub_self]
      exact EncodesChars.nil _
  · rw [hneg hbd] at hres
    cases hres

/-- C8 counterexample: on the validated 2-byte view over "ab", the call
slice(v, 1, SIZE_MAX) wraps the size_t sum 1 + (2^64 - 1) to 0, skips the
end clamp, passes both boundary checks, and the size_t subtraction
underflows: the code returns a present view with byte_len 2^64 - 1 instead
of the clamped one-byte range [1, 2) the claim requires (whose byte_len
would be 1), refuting the claim for all start_byte and len. -/
theorem C8_counterexample :
    slice_utf8_string ⟨some [97, 98], 2⟩ 1 (2 ^ 64 - 1) =
      ⟨some [98], 2 ^ 64 - 1⟩ ∧
    slice_utf8_string ⟨some [97, 98], 2⟩ 1 (2 ^ 64 - 1) ≠
      ⟨some (List.drop (min 1 2) [97, 98]),
       min (min 1 2 + (2 ^ 64 - 1)) 2 - min 1 2⟩ := by
  refine ⟨by decide, ?_⟩
  intro h
  rw [show slice_utf8_string ⟨some [97, 98], 2⟩ 1 (2 ^ 64 - 1) =
    ⟨some [98], 2 ^ 64 - 1⟩ from by decide] at h
  exact absurd h (by decide)

theorem C8_witness :
    (3 < 2 ^ 64 ∧ min 0 3 + 1 < 2 ^ 64) ∧
    (is_utf8_char_boundary (byteAt [72, 208, 180] (min 0 3)) = true ∧
     is_utf8_char_boundary (byteAt [72, 208, 180] (min (min 0 3 + 1) 3)) = true) ∧
    slice_utf8_string ⟨some [72, 208, 180], 3⟩ 0 1 =
      ⟨some (List.drop (min 0 3) [72, 208, 180]), min (min 0 3 + 1) 3 - min 0 3⟩ :=
  ⟨⟨by decide, by decide⟩, ⟨by decide, by decide⟩,
   (C8_slice_clamp_boundary [72, 208, 180] 3 0 1 (by decide) (by decide)).1
     ⟨by decide, by decide⟩⟩
